import Mathlib

/-!
Shallow embedding of `src/BloomFilter.py` (class `BloomFilter`), the canonical
implementation of the repository (`src/BloomFilterHW.py` duplicates the same
method bodies verbatim, with longer comments).

Modelling conventions:
* Python attributes `__numKeys, __numHashes, __maxFalsePos, __N, __bitVector,
  __numBits` become the fields of structure `BloomFilter`.
* The `BitVector` collaborator is a fixed-length `List Bool` (all bits start
  at 0 = `false`); reading bit `i` is `List.getD bits i false`, setting it
  is `List.set bits i true`.
* The external hash primitive `BitHash(key, seed)` is an arbitrary function
  parameter `BitHash : Key → Nat → Nat` (per the contract it is deterministic
  and returns a non-negative integer, so `Nat` results).
* Python's exact integer arithmetic is `Nat`/`Int`; the float arithmetic of
  `__bitsNeeded` and `falsePositiveRate` is modelled exactly: the sizing
  formula over `ℝ` with real exponentiation (`rpow`) and `Int.ceil`, and
  `falsePositiveRate` over `ℚ` (its exponent `numHashes` is an integer).
-/

namespace BloomFilterSpec

/-- State of a `BloomFilter` instance: one field per (private) Python
attribute set in `__init__`. -/
structure BloomFilter where
  numKeys : Nat
  numHashes : Nat
  maxFalsePos : ℝ
  N : Nat
  bitVector : List Bool
  numBits : Nat

/-- Embedding of `BloomFilter.__bitsNeeded`:
`phi = 1 - maxFalsePositive ** (1 / numHashes)`;
result `= math.ceil(numHashes / (1 - phi ** (1 / numKeys)))`. -/
noncomputable def bitsNeeded (numKeys numHashes : Nat) (maxFalsePositive : ℝ) : ℤ :=
  let phi : ℝ := 1 - maxFalsePositive ^ ((1 : ℝ) / (numHashes : ℝ))
  ⌈(numHashes : ℝ) / (1 - phi ^ ((1 : ℝ) / (numKeys : ℝ)))⌉

/-- Embedding of `BloomFilter.__init__`: stores the three parameters, sizes
the bit vector once via `__bitsNeeded`, allocates the all-zero bit vector,
and starts the set-bit counter at 0. The Python constructor performs no
parameter validation. -/
noncomputable def init (numKeys numHashes : Nat) (maxFalsePositive : ℝ) : BloomFilter :=
  let N : Nat := (bitsNeeded numKeys numHashes maxFalsePositive).toNat
  { numKeys := numKeys
    numHashes := numHashes
    maxFalsePos := maxFalsePositive
    N := N
    bitVector := List.replicate N false
    numBits := 0 }

variable {Key : Type}

/-- One iteration of the body of `insert`'s loop: hash, reduce mod `__N`,
and set the bit (incrementing `__numBits`) if it is not already 1. -/
def insertStep (bf : BloomFilter) (index : Nat) : BloomFilter :=
  if bf.bitVector.getD index false = false then
    { bf with
      bitVector := bf.bitVector.set index true
      numBits := bf.numBits + 1 }
  else bf

/-- The loop of `BloomFilter.insert`: `i` iterations remain, `seed` is the
running seed (the previous digest). -/
def insertLoop (BitHash : Key → Nat → Nat) (key : Key) :
    Nat → Nat → BloomFilter → BloomFilter
  | 0, _, bf => bf
  | i + 1, seed, bf =>
    let seed' := BitHash key seed
    insertLoop BitHash key i seed' (insertStep bf (seed' % bf.N))

/-- Embedding of `BloomFilter.insert`: run the loop `__numHashes` times with
starting seed 0. -/
def insert (BitHash : Key → Nat → Nat) (bf : BloomFilter) (key : Key) : BloomFilter :=
  insertLoop BitHash key bf.numHashes 0 bf

/-- The loop of `BloomFilter.find`: return `false` as soon as an indexed bit
is 0, otherwise continue with the digest as the next seed; `true` when all
iterations pass. -/
def findLoop (BitHash : Key → Nat → Nat) (key : Key) :
    Nat → Nat → BloomFilter → Bool
  | 0, _, _ => true
  | i + 1, seed, bf =>
    let seed' := BitHash key seed
    if bf.bitVector.getD (seed' % bf.N) false = false then false
    else findLoop BitHash key i seed' bf

/-- Embedding of `BloomFilter.find`. -/
def find (BitHash : Key → Nat → Nat) (bf : BloomFilter) (key : Key) : Bool :=
  findLoop BitHash key bf.numHashes 0 bf

/-- Embedding of `BloomFilter.falsePositiveRate`:
`phi = (__N - __numBits) / __N`; result `= (1 - phi) ** __numHashes`.
Exact-rational model of the Python float computation. -/
def falsePositiveRate (bf : BloomFilter) : ℚ :=
  let phi : ℚ := ((bf.N : ℚ) - (bf.numBits : ℚ)) / (bf.N : ℚ)
  (1 - phi) ^ bf.numHashes

/-- Embedding of `BloomFilter.numBitsSet`: returns the maintained counter. -/
def numBitsSet (bf : BloomFilter) : Nat :=
  bf.numBits

/-- The index sequence both `insert` and `find` derive for a key: seed starts
at 0 (at call depth `numHashes`), each iteration's digest is reduced mod
`N` to give the index and becomes the next seed. -/
def indexSeq (BitHash : Key → Nat → Nat) (key : Key) (N : Nat) :
    Nat → Nat → List Nat
  | 0, _ => []
  | i + 1, seed =>
    let seed' := BitHash key seed
    (seed' % N) :: indexSeq BitHash key N i seed'

/-- The full index sequence of a key: `numHashes` chained digests starting
from seed 0, each reduced mod `N`. -/
def indices (BitHash : Key → Nat → Nat) (key : Key) (N numHashes : Nat) : List Nat :=
  indexSeq BitHash key N numHashes 0

/-- Processing a list of indices the way `insert`'s loop body does. -/
def setIndices (bf : BloomFilter) : List Nat → BloomFilter
  | [] => bf
  | j :: l => setIndices (insertStep bf j) l

/-- Instrumented `find` loop that counts how many indices of the sequence the
loop consumes (one hash evaluation per consumed index). -/
def findLoopConsumed (BitHash : Key → Nat → Nat) (key : Key) :
    Nat → Nat → BloomFilter → Nat
  | 0, _, _ => 0
  | i + 1, seed, bf =>
    let seed' := BitHash key seed
    if bf.bitVector.getD (seed' % bf.N) false = false then 1
    else 1 + findLoopConsumed BitHash key i seed' bf

/-- Number of indices `find` consumes before returning. -/
def findConsumed (BitHash : Key → Nat → Nat) (bf : BloomFilter) (key : Key) : Nat :=
  findLoopConsumed BitHash key bf.numHashes 0 bf

/-- Instrumented `insert` loop counting consumed indices. -/
def insertLoopConsumed (BitHash : Key → Nat → Nat) (key : Key) :
    Nat → Nat → BloomFilter → Nat
  | 0, _, _ => 0
  | i + 1, seed, bf =>
    let seed' := BitHash key seed
    1 + insertLoopConsumed BitHash key i seed' (insertStep bf (seed' % bf.N))

/-- Number of indices `insert` consumes. -/
def insertConsumed (BitHash : Key → Nat → Nat) (bf : BloomFilter) (key : Key) : Nat :=
  insertLoopConsumed BitHash key bf.numHashes 0 bf

/-- The operations a client can perform on a constructed filter. -/
inductive Op (Key : Type) where
  | insertOp (key : Key)
  | findOp (key : Key)
  | falsePositiveRateOp
  | numBitsSetOp

/-- Effect of one operation on the filter state: only `insert` assigns to an
attribute in the Python class; `find`, `falsePositiveRate` and `numBitsSet`
read state and return a value without mutating. -/
def applyOp (BitHash : Key → Nat → Nat) (bf : BloomFilter) : Op Key → BloomFilter
  | .insertOp key => insert BitHash bf key
  | .findOp _ => bf
  | .falsePositiveRateOp => bf
  | .numBitsSetOp => bf

/-- State after a sequence of operations. -/
def applyOps (BitHash : Key → Nat → Nat) (bf : BloomFilter) (ops : List (Op Key)) :
    BloomFilter :=
  ops.foldl (applyOp BitHash) bf

/-- Folding `insert` over a list of keys. -/
def insertList (BitHash : Key → Nat → Nat) (bf : BloomFilter) (keys : List Key) :
    BloomFilter :=
  keys.foldl (insert BitHash) bf

/-- Well-formedness of a filter state: the bit vector has length `__N`,
`__N` is positive, and the counter `__numBits` equals the number of 1-bits. -/
def WF (bf : BloomFilter) : Prop :=
  bf.bitVector.length = bf.N ∧ 0 < bf.N ∧ bf.numBits = bf.bitVector.count true

/-! ### List-level helper lemmas -/

lemma getD_set_self {l : List Bool} {i : Nat} (h : i < l.length) (a d : Bool) :
    (l.set i a).getD i d = a := by
  induction l generalizing i with
  | nil => simp at h
  | cons b t ih =>
    cases i with
    | zero => rfl
    | succ i =>
      have : i < t.length := by simpa using h
      simpa [List.getD_cons_succ] using ih this

lemma getD_set_true_of_true {l : List Bool} {j : Nat} (i : Nat)
    (h : l.getD j false = true) : (l.set i true).getD j false = true := by
  induction l generalizing i j with
  | nil => simp [List.getD_nil] at h
  | cons b t ih =>
    cases i with
    | zero =>
      cases j with
      | zero => rfl
      | succ j => simpa [List.getD_cons_succ] using h
    | succ i =>
      cases j with
      | zero => simpa using h
      | succ j =>
        have := ih (i := i) (by simpa [List.getD_cons_succ] using h)
        simpa [List.getD_cons_succ] using this

lemma count_set_true {l : List Bool} {i : Nat} (h : i < l.length)
    (hbit : l.getD i false = false) :
    (l.set i true).count true = l.count true + 1 := by
  induction l generalizing i with
  | nil => simp at h
  | cons b t ih =>
    cases i with
    | zero =>
      have hb : b = false := by simpa using hbit
      subst hb
      simp [List.count_cons]
    | succ i =>
      have h' : i < t.length := by simpa using h
      have hbit' : t.getD i false = false := by simpa [List.getD_cons_succ] using hbit
      simp [List.count_cons, ih h' hbit']
      omega

lemma getD_replicate_false (n i : Nat) :
    (List.replicate n false).getD i false = false := by
  induction n generalizing i with
  | zero => simp [List.getD_nil]
  | succ n ih =>
    cases i with
    | zero => rfl
    | succ i => simp [List.replicate, List.getD_cons_succ, ih i]

lemma count_true_replicate_false (n : Nat) :
    (List.replicate n false).count true = 0 := by
  induction n with
  | zero => rfl
  | succ n ih => simp [List.replicate, List.count_cons, ih]

/-! ### Preservation lemmas for the loop body -/

lemma insertStep_numKeys (bf : BloomFilter) (j : Nat) :
    (insertStep bf j).numKeys = bf.numKeys := by
  unfold insertStep; split <;> rfl

lemma insertStep_numHashes (bf : BloomFilter) (j : Nat) :
    (insertStep bf j).numHashes = bf.numHashes := by
  unfold insertStep; split <;> rfl

lemma insertStep_maxFalsePos (bf : BloomFilter) (j : Nat) :
    (insertStep bf j).maxFalsePos = bf.maxFalsePos := by
  unfold insertStep; split <;> rfl

lemma insertStep_N (bf : BloomFilter) (j : Nat) :
    (insertStep bf j).N = bf.N := by
  unfold insertStep; split <;> rfl

lemma insertStep_length (bf : BloomFilter) (j : Nat) :
    (insertStep bf j).bitVector.length = bf.bitVector.length := by
  unfold insertStep; split <;> simp

lemma insertStep_numBits_le (bf : BloomFilter) (j : Nat) :
    bf.numBits ≤ (insertStep bf j).numBits := by
  unfold insertStep; split <;> simp

lemma insertStep_getD_of_true {bf : BloomFilter} {j' : Nat} (j : Nat)
    (h : bf.bitVector.getD j' false = true) :
    (insertStep bf j).bitVector.getD j' false = true := by
  unfold insertStep
  split
  · exact getD_set_true_of_true j h
  · exact h

lemma insertStep_getD_self {bf : BloomFilter} {j : Nat}
    (h : j < bf.bitVector.length) :
    (insertStep bf j).bitVector.getD j false = true := by
  unfold insertStep
  split
  · exact getD_set_self h true false
  · next hb => simpa using hb

lemma insertStep_eq_self {bf : BloomFilter} {j : Nat}
    (h : bf.bitVector.getD j false = true) : insertStep bf j = bf := by
  unfold insertStep
  split
  · next hb => rw [h] at hb; cases hb
  · rfl

lemma insertStep_WF {bf : BloomFilter} {j : Nat} (hwf : WF bf) (hj : j < bf.N) :
    WF (insertStep bf j) := by
  obtain ⟨hlen, hN, hcount⟩ := hwf
  unfold insertStep
  split
  · next hb =>
    refine ⟨by simpa using hlen, by simpa using hN, ?_⟩
    have hjlen : j < bf.bitVector.length := by omega
    show bf.numBits + 1 = (bf.bitVector.set j true).count true
    rw [count_set_true hjlen hb, hcount]
  · exact ⟨hlen, hN, hcount⟩

/-! ### Lemmas about `setIndices` -/

lemma setIndices_N (bf : BloomFilter) (l : List Nat) :
    (setIndices bf l).N = bf.N := by
  induction l generalizing bf with
  | nil => rfl
  | cons j t ih => rw [setIndices, ih, insertStep_N]

lemma setIndices_numHashes (bf : BloomFilter) (l : List Nat) :
    (setIndices bf l).numHashes = bf.numHashes := by
  induction l generalizing bf with
  | nil => rfl
  | cons j t ih => rw [setIndices, ih, insertStep_numHashes]

lemma setIndices_numKeys (bf : BloomFilter) (l : List Nat) :
    (setIndices bf l).numKeys = bf.numKeys := by
  induction l generalizing bf with
  | nil => rfl
  | cons j t ih => rw [setIndices, ih, insertStep_numKeys]

lemma setIndices_maxFalsePos (bf : BloomFilter) (l : List Nat) :
    (setIndices bf l).maxFalsePos = bf.maxFalsePos := by
  induction l generalizing bf with
  | nil => rfl
  | cons j t ih => rw [setIndices, ih, insertStep_maxFalsePos]

lemma setIndices_length (bf : BloomFilter) (l : List Nat) :
    (setIndices bf l).bitVector.length = bf.bitVector.length := by
  induction l generalizing bf with
  | nil => rfl
  | cons j t ih => rw [setIndices, ih, insertStep_length]

lemma setIndices_numBits_le (bf : BloomFilter) (l : List Nat) :
    bf.numBits ≤ (setIndices bf l).numBits := by
  induction l generalizing bf with
  | nil => exact le_refl _
  | cons j t ih =>
    rw [setIndices]
    exact le_trans (insertStep_numBits_le bf j) (ih _)

lemma setIndices_getD_of_true {bf : BloomFilter} {j' : Nat} (l : List Nat)
    (h : bf.bitVector.getD j' false = true) :
    (setIndices bf l).bitVector.getD j' false = true := by
  induction l generalizing bf with
  | nil => exact h
  | cons j t ih =>
    rw [setIndices]
    exact ih (insertStep_getD_of_true j h)

lemma setIndices_getD_of_mem {bf : BloomFilter} {l : List Nat} {j : Nat}
    (hrange : ∀ i ∈ l, i < bf.bitVector.length) (hj : j ∈ l) :
    (setIndices bf l).bitVector.getD j false = true := by
  induction l generalizing bf with
  | nil => cases hj
  | cons j0 t ih =>
    rw [setIndices]
    rcases List.mem_cons.mp hj with hj0 | hjt
    · subst hj0
      exact setIndices_getD_of_true t
        (insertStep_getD_self (hrange j (List.mem_cons_self j t)))
    · exact ih (fun i hi => by
        rw [insertStep_length]; exact hrange i (List.mem_cons_of_mem j0 hi)) hjt

lemma setIndices_eq_self {bf : BloomFilter} {l : List Nat}
    (h : ∀ i ∈ l, bf.bitVector.getD i false = true) : setIndices bf l = bf := by
  induction l with
  | nil => rfl
  | cons j t ih =>
    rw [setIndices, insertStep_eq_self (h j (List.mem_cons_self j t))]
    exact ih (fun i hi => h i (List.mem_cons_of_mem j hi))

lemma setIndices_WF {bf : BloomFilter} {l : List Nat} (hwf : WF bf)
    (hrange : ∀ i ∈ l, i < bf.N) : WF (setIndices bf l) := by
  induction l generalizing bf with
  | nil => exact hwf
  | cons j t ih =>
    rw [setIndices]
    exact ih (insertStep_WF hwf (hrange j (List.mem_cons_self j t)))
      (fun i hi => by rw [insertStep_N]; exact hrange i (List.mem_cons_of_mem j hi))

/-! ### Lemmas about the index sequence -/

lemma mem_indexSeq_lt (BitHash : Key → Nat → Nat) (key : Key) {N : Nat}
    (hN : 0 < N) (i seed : Nat) :
    ∀ j ∈ indexSeq BitHash key N i seed, j < N := by
  induction i generalizing seed with
  | zero => intro j hj; cases hj
  | succ i ih =>
    intro j hj
    rw [indexSeq] at hj
    rcases List.mem_cons.mp hj with h | h
    · subst h; exact Nat.mod_lt _ hN
    · exact ih _ j h

lemma length_indexSeq (BitHash : Key → Nat → Nat) (key : Key) (N i seed : Nat) :
    (indexSeq BitHash key N i seed).length = i := by
  induction i generalizing seed with
  | zero => rfl
  | succ i ih => simp [indexSeq, ih]

/-! ### The loops, characterized over the index sequence -/

lemma insertLoop_eq_setIndices (BitHash : Key → Nat → Nat) (key : Key)
    (i seed : Nat) (bf : BloomFilter) :
    insertLoop BitHash key i seed bf =
      setIndices bf (indexSeq BitHash key bf.N i seed) := by
  induction i generalizing seed bf with
  | zero => rfl
  | succ i ih =>
    rw [insertLoop, indexSeq, setIndices, ih]
    rw [insertStep_N]

lemma insert_eq_setIndices (BitHash : Key → Nat → Nat) (bf : BloomFilter) (key : Key) :
    insert BitHash bf key = setIndices bf (indices BitHash key bf.N bf.numHashes) :=
  insertLoop_eq_setIndices BitHash key bf.numHashes 0 bf

lemma findLoop_eq_all (BitHash : Key → Nat → Nat) (key : Key)
    (i seed : Nat) (bf : BloomFilter) :
    findLoop BitHash key i seed bf =
      (indexSeq BitHash key bf.N i seed).all (fun j => bf.bitVector.getD j false) := by
  induction i generalizing seed with
  | zero => rfl
  | succ i ih =>
    rw [findLoop, indexSeq, List.all_cons]
    cases hb : bf.bitVector.getD (BitHash key seed % bf.N) false with
    | false => simp
    | true => simp [ih]

lemma find_eq_all (BitHash : Key → Nat → Nat) (bf : BloomFilter) (key : Key) :
    find BitHash bf key =
      (indices BitHash key bf.N bf.numHashes).all (fun j => bf.bitVector.getD j false) :=
  findLoop_eq_all BitHash key bf.numHashes 0 bf

lemma findLoopConsumed_eq (BitHash : Key → Nat → Nat) (key : Key)
    (i seed : Nat) (bf : BloomFilter) :
    findLoopConsumed BitHash key i seed bf =
      min i
        (((indexSeq BitHash key bf.N i seed).takeWhile
          (fun j => bf.bitVector.getD j false)).length + 1) := by
  induction i generalizing seed with
  | zero => rfl
  | succ i ih =>
    rw [findLoopConsumed, indexSeq, List.takeWhile_cons]
    cases hb : bf.bitVector.getD (BitHash key seed % bf.N) false with
    | false => simp
    | true =>
      simp only [ih]
      simp
      omega

lemma insertLoopConsumed_eq (BitHash : Key → Nat → Nat) (key : Key)
    (i seed : Nat) (bf : BloomFilter) :
    insertLoopConsumed BitHash key i seed bf = i := by
  induction i generalizing seed bf with
  | zero => rfl
  | succ i ih => rw [insertLoopConsumed, ih]; omega

/-! ### Lemmas about `insert` -/

lemma insert_N (BitHash : Key → Nat → Nat) (bf : BloomFilter) (key : Key) :
    (insert BitHash bf key).N = bf.N := by
  rw [insert_eq_setIndices, setIndices_N]

lemma insert_numHashes (BitHash : Key → Nat → Nat) (bf : BloomFilter) (key : Key) :
    (insert BitHash bf key).numHashes = bf.numHashes := by
  rw [insert_eq_setIndices, setIndices_numHashes]

lemma insert_numKeys (BitHash : Key → Nat → Nat) (bf : BloomFilter) (key : Key) :
    (insert BitHash bf key).numKeys = bf.numKeys := by
  rw [insert_eq_setIndices, setIndices_numKeys]

lemma insert_maxFalsePos (BitHash : Key → Nat → Nat) (bf : BloomFilter) (key : Key) :
    (insert BitHash bf key).maxFalsePos = bf.maxFalsePos := by
  rw [insert_eq_setIndices, setIndices_maxFalsePos]

lemma insert_length (BitHash : Key → Nat → Nat) (bf : BloomFilter) (key : Key) :
    (insert BitHash bf key).bitVector.length = bf.bitVector.length := by
  rw [insert_eq_setIndices, setIndices_length]

lemma insert_numBits_le (BitHash : Key → Nat → Nat) (bf : BloomFilter) (key : Key) :
    bf.numBits ≤ (insert BitHash bf key).numBits := by
  rw [insert_eq_setIndices]; exact setIndices_numBits_le bf _

lemma insert_getD_of_true (BitHash : Key → Nat → Nat) {bf : BloomFilter} (key : Key)
    {j : Nat} (h : bf.bitVector.getD j false = true) :
    (insert BitHash bf key).bitVector.getD j false = true := by
  rw [insert_eq_setIndices]; exact setIndices_getD_of_true _ h

lemma insert_WF (BitHash : Key → Nat → Nat) {bf : BloomFilter} (key : Key)
    (hwf : WF bf) : WF (insert BitHash bf key) := by
  rw [insert_eq_setIndices]
  exact setIndices_WF hwf (mem_indexSeq_lt BitHash key hwf.2.1 _ _)

lemma insert_getD_indices (BitHash : Key → Nat → Nat) {bf : BloomFilter} (key : Key)
    (hlen : bf.bitVector.length = bf.N) (hN : 0 < bf.N) :
    ∀ j ∈ indices BitHash key bf.N bf.numHashes,
      (insert BitHash bf key).bitVector.getD j false = true := by
  intro j hj
  rw [insert_eq_setIndices]
  refine setIndices_getD_of_mem (fun i hi => ?_) hj
  rw [hlen]
  exact mem_indexSeq_lt BitHash key hN _ _ i hi

lemma insert_insert_self (BitHash : Key → Nat → Nat) {bf : BloomFilter} (key : Key)
    (hlen : bf.bitVector.length = bf.N) (hN : 0 < bf.N) :
    insert BitHash (insert BitHash bf key) key = insert BitHash bf key := by
  conv_lhs => rw [insert_eq_setIndices]
  rw [insert_N, insert_numHashes]
  exact setIndices_eq_self (insert_getD_indices BitHash key hlen hN)

/-! ### Lemmas about operation sequences -/

lemma applyOp_WF (BitHash : Key → Nat → Nat) {bf : BloomFilter} (op : Op Key)
    (hwf : WF bf) : WF (applyOp BitHash bf op) := by
  cases op with
  | insertOp key => exact insert_WF BitHash key hwf
  | findOp key => exact hwf
  | falsePositiveRateOp => exact hwf
  | numBitsSetOp => exact hwf

lemma applyOp_N (BitHash : Key → Nat → Nat) (bf : BloomFilter) (op : Op Key) :
    (applyOp BitHash bf op).N = bf.N := by
  cases op with
  | insertOp key => exact insert_N BitHash bf key
  | findOp key => rfl
  | falsePositiveRateOp => rfl
  | numBitsSetOp => rfl

lemma applyOp_numHashes (BitHash : Key → Nat → Nat) (bf : BloomFilter) (op : Op Key) :
    (applyOp BitHash bf op).numHashes = bf.numHashes := by
  cases op with
  | insertOp key => exact insert_numHashes BitHash bf key
  | findOp key => rfl
  | falsePositiveRateOp => rfl
  | numBitsSetOp => rfl

lemma applyOp_getD_of_true (BitHash : Key → Nat → Nat) {bf : BloomFilter} (op : Op Key)
    {j : Nat} (h : bf.bitVector.getD j false = true) :
    (applyOp BitHash bf op).bitVector.getD j false = true := by
  cases op with
  | insertOp key => exact insert_getD_of_true BitHash key h
  | findOp key => exact h
  | falsePositiveRateOp => exact h
  | numBitsSetOp => exact h

lemma applyOp_numBits_le (BitHash : Key → Nat → Nat) (bf : BloomFilter) (op : Op Key) :
    bf.numBits ≤ (applyOp BitHash bf op).numBits := by
  cases op with
  | insertOp key => exact insert_numBits_le BitHash bf key
  | findOp key => exact le_refl _
  | falsePositiveRateOp => exact le_refl _
  | numBitsSetOp => exact le_refl _

lemma applyOps_WF (BitHash : Key → Nat → Nat) {bf : BloomFilter} (ops : List (Op Key))
    (hwf : WF bf) : WF (applyOps BitHash bf ops) := by
  induction ops generalizing bf with
  | nil => exact hwf
  | cons op t ih => exact ih (applyOp_WF BitHash op hwf)

lemma applyOps_N (BitHash : Key → Nat → Nat) (bf : BloomFilter) (ops : List (Op Key)) :
    (applyOps BitHash bf ops).N = bf.N := by
  induction ops generalizing bf with
  | nil => rfl
  | cons op t ih =>
    show (applyOps BitHash (applyOp BitHash bf op) t).N = bf.N
    rw [ih, applyOp_N]

lemma applyOps_numHashes (BitHash : Key → Nat → Nat) (bf : BloomFilter)
    (ops : List (Op Key)) :
    (applyOps BitHash bf ops).numHashes = bf.numHashes := by
  induction ops generalizing bf with
  | nil => rfl
  | cons op t ih =>
    show (applyOps BitHash (applyOp BitHash bf op) t).numHashes = bf.numHashes
    rw [ih, applyOp_numHashes]

lemma applyOps_getD_of_true (BitHash : Key → Nat → Nat) {bf : BloomFilter}
    (ops : List (Op Key)) {j : Nat} (h : bf.bitVector.getD j false = true) :
    (applyOps BitHash bf ops).bitVector.getD j false = true := by
  induction ops generalizing bf with
  | nil => exact h
  | cons op t ih => exact ih (applyOp_getD_of_true BitHash op h)

lemma applyOps_numBits_le (BitHash : Key → Nat → Nat) (bf : BloomFilter)
    (ops : List (Op Key)) :
    bf.numBits ≤ (applyOps BitHash bf ops).numBits := by
  induction ops generalizing bf with
  | nil => exact le_refl _
  | cons op t ih =>
    exact le_trans (applyOp_numBits_le BitHash bf op) (ih _)

lemma applyOps_append (BitHash : Key → Nat → Nat) (bf : BloomFilter)
    (ops ops' : List (Op Key)) :
    applyOps BitHash bf (ops ++ ops') = applyOps BitHash (applyOps BitHash bf ops) ops' :=
  List.foldl_append (applyOp BitHash) bf ops ops'

lemma insertList_WF (BitHash : Key → Nat → Nat) {bf : BloomFilter} (keys : List Key)
    (hwf : WF bf) : WF (insertList BitHash bf keys) := by
  induction keys generalizing bf with
  | nil => exact hwf
  | cons k t ih => exact ih (insert_WF BitHash k hwf)

lemma insertList_N (BitHash : Key → Nat → Nat) (bf : BloomFilter) (keys : List Key) :
    (insertList BitHash bf keys).N = bf.N := by
  induction keys generalizing bf with
  | nil => rfl
  | cons k t ih =>
    show (insertList BitHash (insert BitHash bf k) t).N = bf.N
    rw [ih, insert_N]

lemma insertList_numHashes (BitHash : Key → Nat → Nat) (bf : BloomFilter)
    (keys : List Key) :
    (insertList BitHash bf keys).numHashes = bf.numHashes := by
  induction keys generalizing bf with
  | nil => rfl
  | cons k t ih =>
    show (insertList BitHash (insert BitHash bf k) t).numHashes = bf.numHashes
    rw [ih, insert_numHashes]

lemma insertList_getD_of_true (BitHash : Key → Nat → Nat) {bf : BloomFilter}
    (keys : List Key) {j : Nat} (h : bf.bitVector.getD j false = true) :
    (insertList BitHash bf keys).bitVector.getD j false = true := by
  induction keys generalizing bf with
  | nil => exact h
  | cons k t ih => exact ih (insert_getD_of_true BitHash k h)

/-! ### Lemmas about `bitsNeeded` and `init` -/

lemma bitsNeeded_pos {numKeys numHashes : Nat} {P : ℝ} (hn : 1 ≤ numKeys)
    (hd : 1 ≤ numHashes) (hP0 : 0 < P) (hP1 : P < 1) :
    0 < bitsNeeded numKeys numHashes P := by
  unfold bitsNeeded
  have hdR : (0 : ℝ) < (numHashes : ℝ) := by exact_mod_cast hd
  have hnR : (0 : ℝ) < (numKeys : ℝ) := by exact_mod_cast hn
  have hed : (0 : ℝ) < 1 / (numHashes : ℝ) := by positivity
  have hen : (0 : ℝ) < 1 / (numKeys : ℝ) := by positivity
  have h1 : P ^ ((1 : ℝ) / (numHashes : ℝ)) < 1 := Real.rpow_lt_one hP0.le hP1 hed
  have h2 : 0 < P ^ ((1 : ℝ) / (numHashes : ℝ)) := Real.rpow_pos_of_pos hP0 _
  have hphi0 : (0 : ℝ) < 1 - P ^ ((1 : ℝ) / (numHashes : ℝ)) := by linarith
  have hphi1 : 1 - P ^ ((1 : ℝ) / (numHashes : ℝ)) < 1 := by linarith
  have h3 : (1 - P ^ ((1 : ℝ) / (numHashes : ℝ))) ^ ((1 : ℝ) / (numKeys : ℝ)) < 1 :=
    Real.rpow_lt_one hphi0.le hphi1 hen
  have h4 : 0 < (1 - P ^ ((1 : ℝ) / (numHashes : ℝ))) ^ ((1 : ℝ) / (numKeys : ℝ)) :=
    Real.rpow_pos_of_pos hphi0 _
  have hden : (0 : ℝ) <
      1 - (1 - P ^ ((1 : ℝ) / (numHashes : ℝ))) ^ ((1 : ℝ) / (numKeys : ℝ)) := by
    linarith
  exact Int.ceil_pos.mpr (div_pos hdR hden)

lemma init_N (numKeys numHashes : Nat) (P : ℝ) :
    (init numKeys numHashes P).N = (bitsNeeded numKeys numHashes P).toNat := rfl

lemma init_numKeys (numKeys numHashes : Nat) (P : ℝ) :
    (init numKeys numHashes P).numKeys = numKeys := rfl

lemma init_numHashes (numKeys numHashes : Nat) (P : ℝ) :
    (init numKeys numHashes P).numHashes = numHashes := rfl

lemma init_maxFalsePos (numKeys numHashes : Nat) (P : ℝ) :
    (init numKeys numHashes P).maxFalsePos = P := rfl

lemma init_bitVector (numKeys numHashes : Nat) (P : ℝ) :
    (init numKeys numHashes P).bitVector =
      List.replicate (init numKeys numHashes P).N false := rfl

lemma init_numBits (numKeys numHashes : Nat) (P : ℝ) :
    (init numKeys numHashes P).numBits = 0 := rfl

lemma init_N_pos {numKeys numHashes : Nat} {P : ℝ} (hn : 1 ≤ numKeys)
    (hd : 1 ≤ numHashes) (hP0 : 0 < P) (hP1 : P < 1) :
    0 < (init numKeys numHashes P).N := by
  rw [init_N]
  have := bitsNeeded_pos hn hd hP0 hP1
  omega

lemma init_WF {numKeys numHashes : Nat} {P : ℝ} (hn : 1 ≤ numKeys)
    (hd : 1 ≤ numHashes) (hP0 : 0 < P) (hP1 : P < 1) :
    WF (init numKeys numHashes P) := by
  refine ⟨?_, init_N_pos hn hd hP0 hP1, ?_⟩
  · rw [init_bitVector, List.length_replicate]
  · rw [init_bitVector, init_numBits, count_true_replicate_false]

/-! ## The claims -/

/-- C1. No false negatives: for every key `k` and every `BloomFilter`
constructed with `keyCapacity ≥ 1`, `hashCount ≥ 1` and
`0 < targetFalsePositiveRate < 1`, after `insert(k)` has been called,
`find(k)` returns `true`, regardless of any prior or subsequent inserts of
other keys. -/
theorem noFalseNegatives (BitHash : Key → Nat → Nat) (numKeys numHashes : Nat)
    (P : ℝ) (hn : 1 ≤ numKeys) (hd : 1 ≤ numHashes) (hP0 : 0 < P) (hP1 : P < 1)
    (pre post : List Key) (k : Key) :
    find BitHash
      (insertList BitHash
        (insert BitHash (insertList BitHash (init numKeys numHashes P) pre) k)
        post) k = true := by
  have hwf1 : WF (insertList BitHash (init numKeys numHashes P) pre) :=
    insertList_WF BitHash pre (init_WF hn hd hP0 hP1)
  rw [find_eq_all, insertList_N, insert_N, insertList_numHashes, insert_numHashes]
  apply List.all_eq_true.mpr
  intro j hj
  exact insertList_getD_of_true BitHash post
    (insert_getD_indices BitHash k hwf1.1 hwf1.2.1 j hj)

/-- Witness for C1 at concrete inputs. -/
theorem noFalseNegatives_witness :
    ((1 : Nat) ≤ 1 ∧ (0 : ℝ) < 1 / 2 ∧ (1 / 2 : ℝ) < 1) ∧
    find (fun (key seed : Nat) => key + seed + 3)
      (insertList (fun (key seed : Nat) => key + seed + 3)
        (insert (fun (key seed : Nat) => key + seed + 3)
          (insertList (fun (key seed : Nat) => key + seed + 3) (init 1 1 (1 / 2)) [5])
          7)
        [11]) 7 = true :=
  ⟨⟨le_refl 1, by norm_num, by norm_num⟩,
    noFalseNegatives (fun key seed => key + seed + 3) 1 1 (1 / 2) (le_refl 1)
      (le_refl 1) (by norm_num) (by norm_num) [5] [11] 7⟩

/-- C2 counterexample. The claim says construction raises an
`InvalidParameter` error when `targetFalsePositiveRate` is not strictly
between 0 and 1. The code performs no validation whatsoever (no
`InvalidParameter` exists in the source): with `keyCapacity = 1`,
`hashCount = 1`, `targetFalsePositiveRate = 2`, the constructor runs to
completion and yields a normal filter with `bitLength = 1`
(`phi = 1 - 2 = -1`, `ceil(1 / (1 - (-1))) = ceil(1/2) = 1`), exactly as the
Python code does on that input. -/
theorem constructionUnvalidated_counterexample :
    (init 1 1 2).N = 1 ∧ (init 1 1 2).bitVector = [false] ∧
      (init 1 1 2).numBits = 0 := by
  have hb : bitsNeeded 1 1 2 = 1 := by
    unfold bitsNeeded
    norm_num [Real.rpow_natCast]
    rw [Int.ceil_eq_iff]
    norm_num
  refine ⟨?_, ?_, rfl⟩
  · rw [init_N, hb]; rfl
  · rw [init_bitVector, init_N, hb]; rfl

/-- C2 amended: construction performs no parameter validation and signals
no error; it unconditionally computes `bitLength` and allocates the filter
(in particular it also succeeds on the out-of-range
`targetFalsePositiveRate = 2`). For parameters satisfying the claimed
bounds, construction succeeds with a well-formed filter: `bitLength ≥ 1`,
all bits zero, and `setBitCount = 0`. -/
theorem constructionUnvalidated (numKeys numHashes : Nat) (P : ℝ)
    (hn : 1 ≤ numKeys) (hd : 1 ≤ numHashes) (hP0 : 0 < P) (hP1 : P < 1) :
    WF (init numKeys numHashes P) ∧
      (init numKeys numHashes P).bitVector =
        List.replicate (init numKeys numHashes P).N false ∧
      (init numKeys numHashes P).numBits = 0 :=
  ⟨init_WF hn hd hP0 hP1, rfl, rfl⟩

/-- Witness for the amended C2 at concrete inputs. -/
theorem constructionUnvalidated_witness :
    ((1 : Nat) ≤ 1 ∧ (0 : ℝ) < 1 / 2 ∧ (1 / 2 : ℝ) < 1) ∧
    (WF (init 1 1 (1 / 2)) ∧
      (init 1 1 (1 / 2)).bitVector = List.replicate (init 1 1 (1 / 2)).N false ∧
      (init 1 1 (1 / 2)).numBits = 0) :=
  ⟨⟨le_refl 1, by norm_num, by norm_num⟩,
    constructionUnvalidated 1 1 (1 / 2) (le_refl 1) (le_refl 1) (by norm_num)
      (by norm_num)⟩

/-- C3. Invariant: after construction and after every sequence of `insert`,
`find`, `falsePositiveRate` and `numBitsSet` calls, the maintained counter
`setBitCount` (`__numBits`) exactly equals the number of 1-bits in the bit
vector, and `0 ≤ setBitCount ≤ bitLength` (the lower bound is inherent to
`Nat`). -/
theorem setBitCountInvariant (BitHash : Key → Nat → Nat) (numKeys numHashes : Nat)
    (P : ℝ) (hn : 1 ≤ numKeys) (hd : 1 ≤ numHashes) (hP0 : 0 < P) (hP1 : P < 1)
    (ops : List (Op Key)) :
    numBitsSet (applyOps BitHash (init numKeys numHashes P) ops) =
        (applyOps BitHash (init numKeys numHashes P) ops).bitVector.count true ∧
      numBitsSet (applyOps BitHash (init numKeys numHashes P) ops) ≤
        (applyOps BitHash (init numKeys numHashes P) ops).N := by
  obtain ⟨hlen, hN, hcount⟩ := applyOps_WF BitHash ops (init_WF hn hd hP0 hP1)
  refine ⟨hcount, ?_⟩
  calc numBitsSet (applyOps BitHash (init numKeys numHashes P) ops)
      = (applyOps BitHash (init numKeys numHashes P) ops).bitVector.count true :=
        hcount
    _ ≤ (applyOps BitHash (init numKeys numHashes P) ops).bitVector.length :=
        List.count_le_length true _
    _ = (applyOps BitHash (init numKeys numHashes P) ops).N := hlen

/-- Witness for C3 at concrete inputs. -/
theorem setBitCountInvariant_witness :
    ((1 : Nat) ≤ 1 ∧ (0 : ℝ) < 1 / 2 ∧ (1 / 2 : ℝ) < 1) ∧
    (numBitsSet (applyOps (fun (key seed : Nat) => key + seed)
        (init 1 1 (1 / 2)) [Op.insertOp 4, Op.findOp 4, Op.falsePositiveRateOp]) =
      (applyOps (fun (key seed : Nat) => key + seed)
        (init 1 1 (1 / 2))
        [Op.insertOp 4, Op.findOp 4, Op.falsePositiveRateOp]).bitVector.count true ∧
    numBitsSet (applyOps (fun (key seed : Nat) => key + seed)
        (init 1 1 (1 / 2)) [Op.insertOp 4, Op.findOp 4, Op.falsePositiveRateOp]) ≤
      (applyOps (fun (key seed : Nat) => key + seed)
        (init 1 1 (1 / 2)) [Op.insertOp 4, Op.findOp 4, Op.falsePositiveRateOp]).N) :=
  ⟨⟨le_refl 1, by norm_num, by norm_num⟩,
    setBitCountInvariant (fun key seed => key + seed) 1 1 (1 / 2) (le_refl 1)
      (le_refl 1) (by norm_num) (by norm_num)
      [Op.insertOp 4, Op.findOp 4, Op.falsePositiveRateOp]⟩

/-- C4. Sizing formula: for `keyCapacity ≥ 1`, `hashCount ≥ 1`,
`0 < targetFalsePositiveRate < 1`, `bitsNeeded` returns a positive integer
equal to `ceil(hashCount / (1 - phi^(1/keyCapacity)))` with
`phi = 1 - targetFalsePositiveRate^(1/hashCount)`; it is a pure function
(hence deterministic), and construction invokes it once to fix
`bitLength`. -/
theorem bitsNeededFormula (numKeys numHashes : Nat) (P : ℝ) (hn : 1 ≤ numKeys)
    (hd : 1 ≤ numHashes) (hP0 : 0 < P) (hP1 : P < 1) :
    0 < bitsNeeded numKeys numHashes P ∧
      bitsNeeded numKeys numHashes P =
        ⌈(numHashes : ℝ) /
          (1 - (1 - P ^ ((1 : ℝ) / (numHashes : ℝ))) ^ ((1 : ℝ) / (numKeys : ℝ)))⌉ ∧
      (init numKeys numHashes P).N = (bitsNeeded numKeys numHashes P).toNat ∧
      1 ≤ (init numKeys numHashes P).N :=
  ⟨bitsNeeded_pos hn hd hP0 hP1, rfl, rfl, init_N_pos hn hd hP0 hP1⟩

/-- Witness for C4 at concrete inputs. -/
theorem bitsNeededFormula_witness :
    ((1 : Nat) ≤ 1 ∧ (0 : ℝ) < 1 / 2 ∧ (1 / 2 : ℝ) < 1) ∧
    (0 < bitsNeeded 1 1 (1 / 2) ∧
      bitsNeeded 1 1 (1 / 2) =
        ⌈((1 : Nat) : ℝ) /
          (1 - (1 - (1 / 2 : ℝ) ^ ((1 : ℝ) / ((1 : Nat) : ℝ))) ^
            ((1 : ℝ) / ((1 : Nat) : ℝ)))⌉ ∧
      (init 1 1 (1 / 2)).N = (bitsNeeded 1 1 (1 / 2)).toNat ∧
      1 ≤ (init 1 1 (1 / 2)).N) :=
  ⟨⟨le_refl 1, by norm_num, by norm_num⟩,
    bitsNeededFormula 1 1 (1 / 2) (le_refl 1) (le_refl 1) (by norm_num)
      (by norm_num)⟩

/-- C5. Hash-chain index derivation: for every key, `insert` writes through
and `find` reads through the same index sequence `indices`, obtained by
starting the seed at 0 and, at each of the `hashCount` iterations, taking
`digest = BitHash(key, seed)`, using `digest mod bitLength` as the index,
and passing `digest` itself on as the next seed; every index lies in
`[0, bitLength)`, and the sequence is a deterministic function of the key
and the hash primitive (it reads no filter state but `bitLength` and
`hashCount`). -/
theorem hashChainIndexDerivation (BitHash : Key → Nat → Nat) (bf : BloomFilter)
    (key : Key) (hN : 0 < bf.N) :
    insert BitHash bf key = setIndices bf (indices BitHash key bf.N bf.numHashes) ∧
      find BitHash bf key =
        (indices BitHash key bf.N bf.numHashes).all
          (fun j => bf.bitVector.getD j false) ∧
      (∀ i seed,
        indexSeq BitHash key bf.N (i + 1) seed =
          (BitHash key seed % bf.N) ::
            indexSeq BitHash key bf.N i (BitHash key seed)) ∧
      (∀ j ∈ indices BitHash key bf.N bf.numHashes, j < bf.N) :=
  ⟨insert_eq_setIndices BitHash bf key, find_eq_all BitHash bf key,
    fun _ _ => rfl, mem_indexSeq_lt BitHash key hN bf.numHashes 0⟩

/-- Witness for C5 at concrete inputs. -/
theorem hashChainIndexDerivation_witness :
    0 < (BloomFilter.mk 1 2 0 2 [false, false] 0).N ∧
    (insert (fun (key seed : Nat) => key * seed + 1)
        (BloomFilter.mk 1 2 0 2 [false, false] 0) 3 =
      setIndices (BloomFilter.mk 1 2 0 2 [false, false] 0)
        (indices (fun (key seed : Nat) => key * seed + 1) 3
          (BloomFilter.mk 1 2 0 2 [false, false] 0).N
          (BloomFilter.mk 1 2 0 2 [false, false] 0).numHashes) ∧
      find (fun (key seed : Nat) => key * seed + 1)
          (BloomFilter.mk 1 2 0 2 [false, false] 0) 3 =
        (indices (fun (key seed : Nat) => key * seed + 1) 3
          (BloomFilter.mk 1 2 0 2 [false, false] 0).N
          (BloomFilter.mk 1 2 0 2 [false, false] 0).numHashes).all
            (fun j => (BloomFilter.mk 1 2 0 2 [false, false] 0).bitVector.getD j false) ∧
      (∀ i seed,
        indexSeq (fun (key seed : Nat) => key * seed + 1) 3
            (BloomFilter.mk 1 2 0 2 [false, false] 0).N (i + 1) seed =
          ((fun (key seed : Nat) => key * seed + 1) 3 seed %
              (BloomFilter.mk 1 2 0 2 [false, false] 0).N) ::
            indexSeq (fun (key seed : Nat) => key * seed + 1) 3
              (BloomFilter.mk 1 2 0 2 [false, false] 0).N i
              ((fun (key seed : Nat) => key * seed + 1) 3 seed)) ∧
      (∀ j ∈ indices (fun (key seed : Nat) => key * seed + 1) 3
          (BloomFilter.mk 1 2 0 2 [false, false] 0).N
          (BloomFilter.mk 1 2 0 2 [false, false] 0).numHashes,
        j < (BloomFilter.mk 1 2 0 2 [false, false] 0).N)) :=
  ⟨by decide,
    hashChainIndexDerivation (fun key seed => key * seed + 1)
      (BloomFilter.mk 1 2 0 2 [false, false] 0) 3 (by decide)⟩

/-- C6. Consumption semantics: `find` returns `true` iff all `hashCount`
indexed bits are 1; it consumes the index sequence in order and stops right
after the first index whose bit is 0 (consuming `p + 1` indices when the
longest all-ones prefix has length `p < hashCount`, and all `hashCount`
otherwise), while `insert` always consumes the full sequence of `hashCount`
indices. -/
theorem consumptionSemantics (BitHash : Key → Nat → Nat) (bf : BloomFilter)
    (key : Key) :
    (find BitHash bf key = true ↔
      ∀ j ∈ indices BitHash key bf.N bf.numHashes,
        bf.bitVector.getD j false = true) ∧
      findConsumed BitHash bf key =
        min bf.numHashes
          (((indices BitHash key bf.N bf.numHashes).takeWhile
            (fun j => bf.bitVector.getD j false)).length + 1) ∧
      insertConsumed BitHash bf key = bf.numHashes := by
  refine ⟨?_, findLoopConsumed_eq BitHash key bf.numHashes 0 bf,
    insertLoopConsumed_eq BitHash key bf.numHashes 0 bf⟩
  rw [find_eq_all]
  exact List.all_eq_true

/-- C7. Idempotence of `insert`: for every key `k` and every filter state
(any state whose bit vector has length `bitLength` with `bitLength ≥ 1`, as
the data model prescribes — in particular every state reachable from
construction), executing `insert(k)` twice in succession leaves the whole
state, in particular `bits` and `setBitCount`, identical to executing it
once. -/
theorem insertIdempotent (BitHash : Key → Nat → Nat) (bf : BloomFilter)
    (k : Key) (hlen : bf.bitVector.length = bf.N) (hN : 0 < bf.N) :
    insert BitHash (insert BitHash bf k) k = insert BitHash bf k :=
  insert_insert_self BitHash k hlen hN

/-- Witness for C7 at concrete inputs. -/
theorem insertIdempotent_witness :
    ((BloomFilter.mk 1 3 0 5 [false, true, false, false, false] 1).bitVector.length =
        (BloomFilter.mk 1 3 0 5 [false, true, false, false, false] 1).N ∧
      0 < (BloomFilter.mk 1 3 0 5 [false, true, false, false, false] 1).N) ∧
    insert (fun (key seed : Nat) => key + seed)
        (insert (fun (key seed : Nat) => key + seed)
          (BloomFilter.mk 1 3 0 5 [false, true, false, false, false] 1) 9) 9 =
      insert (fun (key seed : Nat) => key + seed)
        (BloomFilter.mk 1 3 0 5 [false, true, false, false, false] 1) 9 :=
  ⟨⟨by decide, by decide⟩,
    insertIdempotent (fun key seed => key + seed)
      (BloomFilter.mk 1 3 0 5 [false, true, false, false, false] 1) 9 (by decide)
      (by decide)⟩

/-- C8. `falsePositiveRate()` returns exactly
`(1 - phi_actual) ^ hashCount` with
`phi_actual = (bitLength - setBitCount) / bitLength`; it depends on the
state only through `bitLength`, `hashCount` and the maintained counter
`setBitCount` (never on the bit array itself), and it mutates nothing. -/
theorem falsePositiveRateFormula (BitHash : Key → Nat → Nat) (bf bf' : BloomFilter)
    (hN : bf.N = bf'.N) (hH : bf.numHashes = bf'.numHashes)
    (hB : bf.numBits = bf'.numBits) :
    falsePositiveRate bf =
        (1 - ((bf.N : ℚ) - (bf.numBits : ℚ)) / (bf.N : ℚ)) ^ bf.numHashes ∧
      falsePositiveRate bf = falsePositiveRate bf' ∧
      applyOp BitHash bf Op.falsePositiveRateOp = bf := by
  refine ⟨rfl, ?_, rfl⟩
  unfold falsePositiveRate
  rw [hN, hH, hB]

/-- Witness for C8: two states with the same `bitLength`, `hashCount` and
counter but different bit vectors have the same projected rate. -/
theorem falsePositiveRateFormula_witness :
    ((BloomFilter.mk 1 1 0 2 [true, false] 1).N =
        (BloomFilter.mk 1 1 0 2 [false, true] 1).N ∧
      (BloomFilter.mk 1 1 0 2 [true, false] 1).numHashes =
        (BloomFilter.mk 1 1 0 2 [false, true] 1).numHashes ∧
      (BloomFilter.mk 1 1 0 2 [true, false] 1).numBits =
        (BloomFilter.mk 1 1 0 2 [false, true] 1).numBits) ∧
    (falsePositiveRate (BloomFilter.mk 1 1 0 2 [true, false] 1) =
        (1 - (((BloomFilter.mk 1 1 0 2 [true, false] 1).N : ℚ) -
            ((BloomFilter.mk 1 1 0 2 [true, false] 1).numBits : ℚ)) /
          ((BloomFilter.mk 1 1 0 2 [true, false] 1).N : ℚ)) ^
          (BloomFilter.mk 1 1 0 2 [true, false] 1).numHashes ∧
      falsePositiveRate (BloomFilter.mk 1 1 0 2 [true, false] 1) =
        falsePositiveRate (BloomFilter.mk 1 1 0 2 [false, true] 1) ∧
      applyOp (fun (key seed : Nat) => key + seed)
          (BloomFilter.mk 1 1 0 2 [true, false] 1) Op.falsePositiveRateOp =
        BloomFilter.mk 1 1 0 2 [true, false] 1) :=
  ⟨⟨rfl, rfl, rfl⟩,
    falsePositiveRateFormula (fun key seed => key + seed)
      (BloomFilter.mk 1 1 0 2 [true, false] 1)
      (BloomFilter.mk 1 1 0 2 [false, true] 1) rfl rfl rfl⟩

/-- C9. Monotonicity: along any operation sequence on a validly constructed
filter, a bit that is 1 is never reset to 0 and `setBitCount` never
decreases; the counter's total increase equals the number of newly set bits
(it grows by exactly 1 per 0-to-1 transition), and `find`,
`falsePositiveRate` and `numBitsSet` leave the state unchanged. -/
theorem monotoneEvolution (BitHash : Key → Nat → Nat) (numKeys numHashes : Nat)
    (P : ℝ) (hn : 1 ≤ numKeys) (hd : 1 ≤ numHashes) (hP0 : 0 < P) (hP1 : P < 1)
    (ops extra : List (Op Key)) :
    (∀ j,
        (applyOps BitHash (init numKeys numHashes P) ops).bitVector.getD j false =
          true →
        (applyOps BitHash (init numKeys numHashes P)
          (ops ++ extra)).bitVector.getD j false = true) ∧
      (applyOps BitHash (init numKeys numHashes P) ops).numBits ≤
        (applyOps BitHash (init numKeys numHashes P) (ops ++ extra)).numBits ∧
      (applyOps BitHash (init numKeys numHashes P) (ops ++ extra)).numBits -
          (applyOps BitHash (init numKeys numHashes P) ops).numBits =
        (applyOps BitHash (init numKeys numHashes P)
            (ops ++ extra)).bitVector.count true -
          (applyOps BitHash (init numKeys numHashes P) ops).bitVector.count true ∧
      (∀ k : Key,
        applyOp BitHash (applyOps BitHash (init numKeys numHashes P) ops)
            (Op.findOp k) =
          applyOps BitHash (init numKeys numHashes P) ops) ∧
      applyOp BitHash (applyOps BitHash (init numKeys numHashes P) ops)
          Op.falsePositiveRateOp =
        applyOps BitHash (init numKeys numHashes P) ops ∧
      applyOp BitHash (applyOps BitHash (init numKeys numHashes P) ops)
          Op.numBitsSetOp =
        applyOps BitHash (init numKeys numHashes P) ops := by
  have hwf := applyOps_WF BitHash ops (init_WF hn hd hP0 hP1)
  rw [applyOps_append]
  have hwf' := applyOps_WF BitHash extra hwf
  refine ⟨fun j h => applyOps_getD_of_true BitHash extra h,
    applyOps_numBits_le BitHash _ extra, ?_, fun _ => rfl, rfl, rfl⟩
  rw [hwf.2.2, hwf'.2.2]

/-- Witness for C9 at concrete inputs. -/
theorem monotoneEvolution_witness :
    ((1 : Nat) ≤ 1 ∧ (0 : ℝ) < 1 / 2 ∧ (1 / 2 : ℝ) < 1) ∧
    ((∀ j,
        (applyOps (fun (key seed : Nat) => key + seed) (init 1 1 (1 / 2))
          [Op.insertOp 2]).bitVector.getD j false = true →
        (applyOps (fun (key seed : Nat) => key + seed) (init 1 1 (1 / 2))
          ([Op.insertOp 2] ++ [Op.insertOp 5])).bitVector.getD j false = true) ∧
      (applyOps (fun (key seed : Nat) => key + seed) (init 1 1 (1 / 2))
          [Op.insertOp 2]).numBits ≤
        (applyOps (fun (key seed : Nat) => key + seed) (init 1 1 (1 / 2))
          ([Op.insertOp 2] ++ [Op.insertOp 5])).numBits ∧
      (applyOps (fun (key seed : Nat) => key + seed) (init 1 1 (1 / 2))
            ([Op.insertOp 2] ++ [Op.insertOp 5])).numBits -
          (applyOps (fun (key seed : Nat) => key + seed) (init 1 1 (1 / 2))
            [Op.insertOp 2]).numBits =
        (applyOps (fun (key seed : Nat) => key + seed) (init 1 1 (1 / 2))
            ([Op.insertOp 2] ++ [Op.insertOp 5])).bitVector.count true -
          (applyOps (fun (key seed : Nat) => key + seed) (init 1 1 (1 / 2))
            [Op.insertOp 2]).bitVector.count true ∧
      (∀ k : Nat,
        applyOp (fun (key seed : Nat) => key + seed)
            (applyOps (fun (key seed : Nat) => key + seed) (init 1 1 (1 / 2))
              [Op.insertOp 2]) (Op.findOp k) =
          applyOps (fun (key seed : Nat) => key + seed) (init 1 1 (1 / 2))
            [Op.insertOp 2]) ∧
      applyOp (fun (key seed : Nat) => key + seed)
          (applyOps (fun (key seed : Nat) => key + seed) (init 1 1 (1 / 2))
            [Op.insertOp 2]) Op.falsePositiveRateOp =
        applyOps (fun (key seed : Nat) => key + seed) (init 1 1 (1 / 2))
          [Op.insertOp 2] ∧
      applyOp (fun (key seed : Nat) => key + seed)
          (applyOps (fun (key seed : Nat) => key + seed) (init 1 1 (1 / 2))
            [Op.insertOp 2]) Op.numBitsSetOp =
        applyOps (fun (key seed : Nat) => key + seed) (init 1 1 (1 / 2))
          [Op.insertOp 2]) :=
  ⟨⟨le_refl 1, by norm_num, by norm_num⟩,
    monotoneEvolution (fun key seed => key + seed) 1 1 (1 / 2) (le_refl 1)
      (le_refl 1) (by norm_num) (by norm_num) [Op.insertOp 2] [Op.insertOp 5]⟩

/-- C10. Fresh-filter behavior: on a validly constructed filter with no
inserts performed, `find` returns `false` for every key, and
`falsePositiveRate()` returns 0. -/
theorem freshFilterBehavior (BitHash : Key → Nat → Nat) (numKeys numHashes : Nat)
    (P : ℝ) (hn : 1 ≤ numKeys) (hd : 1 ≤ numHashes) (hP0 : 0 < P) (hP1 : P < 1)
    (k : Key) :
    find BitHash (init numKeys numHashes P) k = false ∧
      falsePositiveRate (init numKeys numHashes P) = 0 := by
  constructor
  · obtain ⟨m, hm⟩ : ∃ m, numHashes = m + 1 := ⟨numHashes - 1, by omega⟩
    subst hm
    show findLoop BitHash k (init numKeys (m + 1) P).numHashes 0
      (init numKeys (m + 1) P) = false
    rw [init_numHashes]
    simp only [findLoop, init_bitVector, getD_replicate_false]
    simp
  · have hN := init_N_pos hn hd hP0 hP1
    simp only [falsePositiveRate, init_numBits, init_numHashes]
    rw [Nat.cast_zero, sub_zero,
      div_self (Nat.cast_ne_zero.mpr (Nat.pos_iff_ne_zero.mp hN)), sub_self]
    exact zero_pow (by omega)

/-- Witness for C10 at concrete inputs. -/
theorem freshFilterBehavior_witness :
    ((1 : Nat) ≤ 1 ∧ (0 : ℝ) < 1 / 2 ∧ (1 / 2 : ℝ) < 1) ∧
    (find (fun (key seed : Nat) => key + seed) (init 1 1 (1 / 2)) 6 = false ∧
      falsePositiveRate (init 1 1 (1 / 2)) = 0) :=
  ⟨⟨le_refl 1, by norm_num, by norm_num⟩,
    freshFilterBehavior (fun key seed => key + seed) 1 1 (1 / 2) (le_refl 1)
      (le_refl 1) (by norm_num) (by norm_num) 6⟩

end BloomFilterSpec
